import Mathlib

/-!
Verification development for the bash debug adapter's correlation engine
(`src/bashDebug.ts`).  Strings are embedded as `List Char`; the JavaScript
behaviours that matter (negative array indices yielding `undefined`,
`String.prototype.indexOf` returning `-1`, `split` keeping trailing empty
fragments, `parseInt`) are modelled explicitly.
-/

namespace BashDebug

set_option maxRecDepth 16384

/-- JavaScript array indexing: a negative index yields `undefined` (`none`). -/
def jsGet (buf : List (List Char)) (i : Int) : Option (List Char) :=
  if i < 0 then none else buf.get? i.toNat

/-- First index at which `sub` occurs in `l`
(JavaScript `String.prototype.indexOf`, `none` for "not found"). -/
def findSub (sub : List Char) : List Char → Option Nat
  | [] => if sub.isPrefixOf ([] : List Char) then some 0 else none
  | a :: rest =>
    if sub.isPrefixOf (a :: rest) then some 0
    else (findSub sub rest).map (· + 1)

/-- JavaScript `indexOf` with its `-1` convention. -/
def idxOf (sub l : List Char) : Int :=
  match findSub sub l with
  | some i => (i : Int)
  | none => -1

/-- Whether `sub` occurs anywhere in `l`. -/
def containsSub (sub l : List Char) : Bool :=
  (findSub sub l).isSome

/-- JavaScript `String.prototype.split` on a single separator character
(no limit; trailing empty fragments are kept). -/
def splitOn (sep : Char) : List Char → List (List Char)
  | [] => [[]]
  | a :: rest =>
    if a = sep then [] :: splitOn sep rest
    else
      match splitOn sep rest with
      | [] => [[a]]
      | l :: ls => (a :: l) :: ls

/-- The 60-character sentinel `BashDebugSession.END_MARKER`. -/
def END_MARKER : List Char :=
  "############################################################".toList

/-- The interactive-prompt head `"bashdb<"`. -/
def promptHead : List Char := "bashdb<".toList

/-- The string `"> "` closing the inline prompt. -/
def gtSpace : List Char := "> ".toList

/-- `BashDebugSession.removePrompt`: if the line starts with `"bashdb<"`,
return `line.substr(line.indexOf("> ") + 2)`, else the line unchanged. -/
def removePrompt (line : List Char) : List Char :=
  if idxOf promptHead line = 0 then
    line.drop (idxOf gtSpace line + 2).toNat
  else line

/-- `BashDebugSession.promptReached`: the buffer has grown past the
high-water mark and the second-to-last buffered line equals the sentinel
(`buf[buf.length - 2]`; a negative index gives `undefined`, which is never
equal to the marker string). -/
def promptReached (buf : List (List Char)) (hwm : Nat) : Bool :=
  decide (hwm < buf.length) &&
    decide (jsGet buf ((buf.length : Int) - 2) = some END_MARKER)

/-- One `data` callback of `processDebugTerminalOutput`: split the chunk on
newlines, stitch the popped last buffered line with the first fragment, and
append every (prompt-stripped) line. -/
def consumeChunk (buf : List (List Char)) (chunk : List Char) : List (List Char) :=
  let list := splitOn '\n' chunk
  let fullLine := buf.getLast?.getD [] ++ list.headD []
  buf.dropLast ++ (removePrompt fullLine :: (list.tail.map removePrompt))

/-- Consuming a whole sequence of stream chunks. -/
def consumeChunks (buf : List (List Char)) (chunks : List (List Char)) : List (List Char) :=
  chunks.foldl consumeChunk buf

/- ### Basic lemmas about the string helpers -/

theorem findSub_eq_some_of (sub : List Char) (i : Nat) :
    ∀ l : List Char, sub.isPrefixOf (l.drop i) = true →
      (∀ j, j < i → sub.isPrefixOf (l.drop j) = false) →
      findSub sub l = some i := by
  induction i with
  | zero =>
    intro l hp _
    cases l with
    | nil => simp only [findSub]; rw [if_pos]; exact hp
    | cons a r => simp only [findSub]; rw [if_pos]; exact hp
  | succ i ih =>
    intro l hp hmin
    cases l with
    | nil =>
      have h1 : sub.isPrefixOf ([] : List Char) = true := by simpa using hp
      have h2 : sub.isPrefixOf ([] : List Char) = false := by
        simpa using hmin 0 (Nat.succ_pos i)
      rw [h1] at h2
      exact Bool.noConfusion h2
    | cons a r =>
      have h0 : sub.isPrefixOf (a :: r) = false := by
        simpa using hmin 0 (Nat.succ_pos i)
      have hr : findSub sub r = some i := by
        apply ih r
        · simpa [List.drop_succ_cons] using hp
        · intro j hj
          simpa [List.drop_succ_cons] using hmin (j + 1) (by omega)
      simp [findSub, h0, hr]

theorem findSub_eq_none_of (sub : List Char) (hsub : sub ≠ []) :
    ∀ l : List Char, (∀ j, sub.isPrefixOf (l.drop j) = false) →
      findSub sub l = none := by
  intro l
  induction l with
  | nil =>
    intro _
    cases sub with
    | nil => exact absurd rfl hsub
    | cons a as => simp [findSub, List.isPrefixOf]
  | cons a r ih =>
    intro h
    have h0 : sub.isPrefixOf (a :: r) = false := by simpa using h 0
    have hr : findSub sub r = none := by
      apply ih
      intro j
      simpa [List.drop_succ_cons] using h (j + 1)
    simp [findSub, h0, hr]

theorem findSub_zero_iff (sub l : List Char) :
    findSub sub l = some 0 ↔ sub.isPrefixOf l = true := by
  constructor
  · intro h
    cases l with
    | nil =>
      by_cases hp : sub.isPrefixOf ([] : List Char) = true
      · exact hp
      · simp [findSub, hp] at h
    | cons a r =>
      by_cases hp : sub.isPrefixOf (a :: r) = true
      · exact hp
      · simp [findSub, hp] at h
  · intro h
    cases l with
    | nil => simp [findSub, h]
    | cons a r => simp [findSub, h]

theorem idxOf_zero_iff (sub l : List Char) :
    idxOf sub l = 0 ↔ sub.isPrefixOf l = true := by
  rw [← findSub_zero_iff]
  unfold idxOf
  cases h : findSub sub l with
  | none => simp
  | some i => simp [Int.natCast_inj]

theorem splitOn_ne_nil (sep : Char) (l : List Char) : splitOn sep l ≠ [] := by
  cases l with
  | nil => simp [splitOn]
  | cons a rest =>
    by_cases h : a = sep
    · simp [splitOn, h]
    · simp only [splitOn, if_neg h]
      cases splitOn sep rest with
      | nil => simp
      | cons x xs => simp

theorem splitOn_length (sep : Char) (l : List Char) :
    (splitOn sep l).length = l.count sep + 1 := by
  induction l with
  | nil => simp [splitOn]
  | cons a rest ih =>
    by_cases h : a = sep
    · simp [splitOn, h, List.count_cons, ih]
    · simp only [splitOn, if_neg h]
      cases hs : splitOn sep rest with
      | nil => exact absurd hs (splitOn_ne_nil sep rest)
      | cons x xs =>
        have := ih
        rw [hs] at this
        simp only [List.length_cons] at this ⊢
        have hc : (a :: rest).count sep = rest.count sep := by
          simp [List.count_cons, h]
        omega

theorem consumeChunk_length (buf : List (List Char)) (c : List Char)
    (h : buf ≠ []) :
    (consumeChunk buf c).length = buf.length + c.count '\n' := by
  have h1 : buf.dropLast.length = buf.length - 1 := List.length_dropLast buf
  have h2 : (splitOn '\n' c).length = c.count '\n' + 1 := splitOn_length _ _
  have h3 : (splitOn '\n' c).tail.length = (splitOn '\n' c).length - 1 :=
    List.length_tail _
  have hb : 1 ≤ buf.length := List.length_pos.mpr h
  simp only [consumeChunk, List.length_append, List.length_cons, List.length_map]
  omega

theorem consumeChunk_ne_nil (buf : List (List Char)) (c : List Char) :
    consumeChunk buf c ≠ [] := by
  simp [consumeChunk]

theorem consumeChunks_length (chunks : List (List Char)) :
    ∀ buf : List (List Char), buf ≠ [] →
      (consumeChunks buf chunks).length
        = buf.length + (chunks.map (fun c => c.count '\n')).sum := by
  induction chunks with
  | nil => intro buf _; simp [consumeChunks]
  | cons c rest ih =>
    intro buf hb
    have hr := ih (consumeChunk buf c) (consumeChunk_ne_nil buf c)
    simp only [consumeChunks, List.foldl_cons, List.map_cons, List.sum_cons]
    simp only [consumeChunks] at hr
    rw [hr, consumeChunk_length buf c hb]
    omega

theorem count_flatten (c : Char) (ls : List (List Char)) :
    ls.flatten.count c = (ls.map (fun l => l.count c)).sum := by
  induction ls with
  | nil => simp
  | cons x xs ih => simp [List.count_append, ih]

/- ### JavaScript `parseInt` and the breakpoint-confirmation parser -/

/-- Value of a (possibly hexadecimal) digit character. -/
def digitVal (c : Char) : Option Nat :=
  if '0' ≤ c ∧ c ≤ '9' then some (c.toNat - '0'.toNat)
  else if 'a' ≤ c ∧ c ≤ 'f' then some (c.toNat - 'a'.toNat + 10)
  else if 'A' ≤ c ∧ c ≤ 'F' then some (c.toNat - 'A'.toNat + 10)
  else none

/-- Whether `c` is a digit in the given base. -/
def isDigitBase (base : Nat) (c : Char) : Bool :=
  match digitVal c with
  | some v => v < base
  | none => false

/-- Parse the leading run of base-`base` digits; `none` when there is none
(JavaScript `parseInt` yields `NaN` then). -/
def parseDigits (base : Nat) (s : List Char) : Option Nat :=
  let ds := s.takeWhile (isDigitBase base)
  if ds.isEmpty then none
  else some (ds.foldl (fun acc c => acc * base + (digitVal c).getD 0) 0)

/-- JavaScript whitespace skipped by `parseInt`. -/
def isJsSpace (c : Char) : Bool :=
  c == ' ' || c == '\t' || c == '\n' || c == '\r'

/-- JavaScript `parseInt(s)` (radix unspecified): skip whitespace, optional
sign, `0x`/`0X` selects base 16, trailing garbage ignored; `none` models
`NaN`. -/
def parseIntJS (s : List Char) : Option Int :=
  let t := s.dropWhile isJsSpace
  let signed : Int × List Char :=
    match t with
    | '-' :: r => (-1, r)
    | '+' :: r => (1, r)
    | _ => (1, t)
  match signed.2 with
  | '0' :: 'x' :: r => (parseDigits 16 r).map (fun n => signed.1 * n)
  | '0' :: 'X' :: r => (parseDigits 16 r).map (fun n => signed.1 * n)
  | u => (parseDigits 10 u).map (fun n => signed.1 * n)

/-- The marker-line test of `setBreakPointsRequestFinalize` /
`variablesRequestFinalize`: `line.indexOf(" <") == 0 && line.indexOf("> ") > 0`. -/
def isConfirmationMarker (l : List Char) : Bool :=
  decide (idxOf " <".toList l = 0) && decide (idxOf gtSpace l > 0)

/-- `parseInt(lineNodes[1])` where `lineNodes = line.split(" ")`
(an out-of-range index is `undefined`, which `parseInt` turns into `NaN`). -/
def parsedBreakpointId (l : List Char) : Option Int :=
  match (splitOn ' ' l).get? 1 with
  | none => none
  | some t => parseIntJS t

/-- The per-file breakpoint ledger `_currentBreakpointIds`
(a JavaScript object keyed by source path). -/
def Ledger : Type := List Char → List (Option Int)

/-- Property assignment on the ledger object. -/
def ledgerSet (led : Ledger) (p : List Char) (v : List (Option Int)) : Ledger :=
  fun q => if q = p then v else led q

/-- Whether line `i - 1` of the buffer is a confirmation marker
(JavaScript `this._fullDebugOutput[i-1]`). -/
def markerTestAt (buf : List (List Char)) (i : Nat) : Bool :=
  isConfirmationMarker ((jsGet buf ((i : Int) - 1)).getD [])

/-- The id parsed from buffer line `i`. -/
def idAt (buf : List (List Char)) (i : Nat) : Option Int :=
  parsedBreakpointId ((jsGet buf (i : Int)).getD [])

/-- The index range `for (i = hwm; i < stop; i++)`. -/
def pollIndices (hwm stop : Nat) : List Nat :=
  List.range' hwm (stop - hwm)

/-- The ledger effect of one invocation of `setBreakPointsRequestFinalize`:
when the prompt is reached, the file's entry is reset to `[]` and every id
parsed from a marker-flagged confirmation line in
`[hwm, buf.length - 2)` is pushed; otherwise nothing changes. -/
def sbpFinalizeLedger (led : Ledger) (path : List Char)
    (buf : List (List Char)) (hwm : Nat) : Ledger :=
  if promptReached buf hwm then
    (pollIndices hwm (buf.length - 2)).foldl
      (fun acc i =>
        if markerTestAt buf i then ledgerSet acc path (acc path ++ [idAt buf i])
        else acc)
      (ledgerSet led path [])
  else led

/-- The ids parsed from the request's own confirmation lines: one per
marker-flagged index in the captured range. -/
def confirmedIds (buf : List (List Char)) (hwm : Nat) : List (Option Int) :=
  ((pollIndices hwm (buf.length - 2)).filter (markerTestAt buf)).map (idAt buf)

/- ### The variables request -/

/-- The fixed list of queried variable names
(`["PWD","?","0","1","2","3","4","5","6","7","8","9"]`). -/
def variableSeedNames : List (List Char) :=
  (["PWD", "?", "0", "1", "2", "3", "4", "5", "6", "7", "8", "9"]).map
    String.toList

/-- The marker/value command pair emitted for one variable name:
`print ' <$v> '\nexamine $v\n`. -/
def variableQueryBlock (v : List Char) : List Char :=
  "print ' <$".toList ++ v ++ "> '\nexamine $".toList ++ v ++ "\n".toList

/-- `getVariablesCommand` as built by `variablesRequest`; the request
arguments are ignored by the construction, exactly as in the source. -/
def variablesCommandFor (_args : Nat) : List Char :=
  variableSeedNames.foldl (fun acc v => acc ++ variableQueryBlock v)
    "info program\n".toList

/-- The full text written to the debugger's stdin by `variablesRequest`
(command then the sentinel print). -/
def variablesWrittenText (args : Nat) : List Char :=
  variablesCommandFor args ++ "print '".toList ++ END_MARKER ++ "'\n".toList

/- ### Responses sent by the set-breakpoints completion poller -/

/-- The responses sent by one invocation of `setBreakPointsRequestFinalize`:
one bodyless response on entry (`false`), then one carrying the breakpoints
body (`true`) when the prompt has been reached. -/
def sbpFinalizeResponses (buf : List (List Char)) (hwm : Nat) : List Bool :=
  [false] ++ (if promptReached buf hwm then [true] else [])

/-- The responses sent across a polling run: each element of `bufs` is the
buffer snapshot seen by one scheduled invocation; polling stops at the first
snapshot where the prompt is reached. -/
def sbpPollRun (hwm : Nat) : List (List (List Char)) → List Bool
  | [] => []
  | b :: bs =>
    sbpFinalizeResponses b hwm ++
      (if promptReached b hwm then [] else sbpPollRun hwm bs)

/- ### Fold lemma for the ledger loop -/

theorem sbp_foldl_ledger (buf : List (List Char)) (path : List Char)
    (is : List Nat) :
    ∀ (led : Ledger) (v : List (Option Int)),
      (is.foldl
        (fun acc i =>
          if markerTestAt buf i then ledgerSet acc path (acc path ++ [idAt buf i])
          else acc)
        (ledgerSet led path v)) path
        = v ++ (is.filter (markerTestAt buf)).map (idAt buf) := by
  induction is with
  | nil => intro led v; simp [ledgerSet]
  | cons i rest ih =>
    intro led v
    by_cases h : markerTestAt buf i = true
    · have hv : (ledgerSet led path v) path = v := by simp [ledgerSet]
      have step :
          ledgerSet (ledgerSet led path v) path (v ++ [idAt buf i])
            = ledgerSet led path (v ++ [idAt buf i]) := by
        funext q
        by_cases hq : q = path <;> simp [ledgerSet, hq]
      simp only [List.foldl_cons]
      rw [if_pos h, hv, step, ih led (v ++ [idAt buf i])]
      simp [List.filter_cons, h, List.append_assoc]
    · simp only [List.foldl_cons]
      rw [if_neg h, ih led v]
      simp [List.filter_cons, h]

/- ### The command gate and scheduler, as a labelled transition system

The session state carries the busy and closing flags, the line buffer, the
multiset of callbacks currently sitting in the timer queue, and ghost logs of
the commands written to the child's stdin, the completions detected, and the
protocol responses sent.  Step-like request handlers
(`continueRequest`, `nextRequest`, `stepInRequest`, `stepOutRequest`) and
their completion pollers are the `Task`s. -/

/-- A scheduled callback: a (step-like) request handler retry, or a
completion poller carrying its command id and recorded high-water mark. -/
inductive Task where
  | request : Nat → Task
  | finalize : Nat → Nat → Task
deriving DecidableEq

/-- Whether a task is a completion poller. -/
def Task.isFin : Task → Bool
  | .request _ => false
  | .finalize _ _ => true

/-- The mutable session state of `BashDebugSession`, with ghost logs. -/
structure SessState where
  busy : Bool
  closing : Bool
  buf : List (List Char)
  tasks : List Task
  writes : List Nat
  completed : List Nat
  responses : List Nat

/-- `scheduleExecution`: a no-op once the closing flag is set. -/
def scheduleT (closing : Bool) (ts : List Task) (t : Task) : List Task :=
  if closing then ts else ts ++ [t]

/-- One scheduler step.  The index is `true` when lifecycle events
(disconnect, child-process exit) are allowed, `false` for the live session.
Running a queued callback removes it from the queue (the decomposition
`l₁ ++ t :: l₂` names the occurrence that fires). -/
inductive Step : Bool → SessState → SessState → Prop where
  | reqBusy (lc : Bool) (s : SessState) (id : Nat) (l₁ l₂ : List Task)
      (ht : s.tasks = l₁ ++ Task.request id :: l₂) (hb : s.busy = true) :
      Step lc s
        { s with tasks := scheduleT s.closing (l₁ ++ l₂) (Task.request id) }
  | reqFree (lc : Bool) (s : SessState) (id : Nat) (l₁ l₂ : List Task)
      (ht : s.tasks = l₁ ++ Task.request id :: l₂) (hb : s.busy = false) :
      Step lc s
        { s with
          busy := true
          tasks :=
            scheduleT s.closing (l₁ ++ l₂) (Task.finalize id s.buf.length)
          writes := s.writes ++ [id]
          responses := s.responses ++ [id] }
  | finPoll (lc : Bool) (s : SessState) (id hwm : Nat) (l₁ l₂ : List Task)
      (ht : s.tasks = l₁ ++ Task.finalize id hwm :: l₂)
      (hp : promptReached s.buf hwm = false) :
      Step lc s
        { s with
          tasks := scheduleT s.closing (l₁ ++ l₂) (Task.finalize id hwm) }
  | finDone (lc : Bool) (s : SessState) (id hwm : Nat) (l₁ l₂ : List Task)
      (ht : s.tasks = l₁ ++ Task.finalize id hwm :: l₂)
      (hp : promptReached s.buf hwm = true) :
      Step lc s
        { s with
          busy := false
          tasks := l₁ ++ l₂
          completed := s.completed ++ [id] }
  | data (lc : Bool) (s : SessState) (chunk : List Char) :
      Step lc s { s with buf := consumeChunk s.buf chunk }
  | disconnect (s : SessState) :
      Step true s { s with busy := false }
  | exitEvent (s : SessState) :
      Step true s { s with closing := true }

/-- Reachability through live-session steps only. -/
def ReachLive : SessState → SessState → Prop :=
  Relation.ReflTransGen (Step false)

/-- Reachability when lifecycle events are allowed too. -/
def ReachFull : SessState → SessState → Prop :=
  Relation.ReflTransGen (Step true)

/-- The sentinel sits in the buffer at some non-final position (such an
entry is never mutated again by chunk stitching). -/
def markerAt (buf : List (List Char)) : Prop :=
  ∃ i, i + 1 < buf.length ∧ buf.get? i = some END_MARKER

/-- Session state right after two back-to-back requests have been received
while the gate is free. -/
def initTwo (b₀ : List (List Char)) : SessState :=
  { busy := false
    closing := false
    buf := b₀
    tasks := [Task.request 1, Task.request 2]
    writes := []
    completed := []
    responses := [] }

/-- The gate invariant: live; when idle there is no poller and every written
command has completed; when busy there is exactly one poller, for the single
uncompleted (= most recent) write; a completion means the sentinel sits in
the buffer; every write was acknowledged. -/
def Inv (s : SessState) : Prop :=
  s.closing = false ∧
  (s.busy = false → s.tasks.filter Task.isFin = [] ∧ s.writes = s.completed) ∧
  (s.busy = true →
    ∃ id hwm, s.tasks.filter Task.isFin = [Task.finalize id hwm] ∧
      s.writes = s.completed ++ [id]) ∧
  (s.completed ≠ [] → markerAt s.buf) ∧
  (∀ id, id ∈ s.writes → id ∈ s.responses)

theorem append_cons_eq_singleton {α : Type} {l₁ l₂ : List α} {a b : α}
    (h : l₁ ++ a :: l₂ = [b]) : l₁ = [] ∧ a = b ∧ l₂ = [] := by
  cases l₁ with
  | nil =>
    simp only [List.nil_append, List.cons.injEq] at h
    exact ⟨rfl, h.1, h.2⟩
  | cons c l =>
    have := congrArg List.length h
    simp [List.length_append] at this

theorem markerAt_of_promptReached {buf : List (List Char)} {hwm : Nat}
    (h : promptReached buf hwm = true) : markerAt buf := by
  unfold promptReached at h
  rw [Bool.and_eq_true, decide_eq_true_iff, decide_eq_true_iff] at h
  obtain ⟨h1, h2⟩ := h
  unfold jsGet at h2
  by_cases hneg : ((buf.length : Int) - 2) < 0
  · rw [if_pos hneg] at h2
    exact absurd h2 (by simp)
  · rw [if_neg hneg] at h2
    have hlen : 2 ≤ buf.length := by omega
    have htn : ((buf.length : Int) - 2).toNat = buf.length - 2 := by omega
    rw [htn] at h2
    exact ⟨buf.length - 2, by omega, h2⟩

theorem markerAt_consumeChunk {buf : List (List Char)} {chunk : List Char}
    (h : markerAt buf) : markerAt (consumeChunk buf chunk) := by
  obtain ⟨i, hi, hg⟩ := h
  have hne : buf ≠ [] := by
    intro hh
    rw [hh] at hi
    simp at hi
  have hdl : buf.dropLast.length = buf.length - 1 := List.length_dropLast buf
  have hidl : i < buf.dropLast.length := by omega
  have hsplit : buf.dropLast ++ [buf.getLast hne] = buf :=
    List.dropLast_append_getLast hne
  have hdget : buf.dropLast.get? i = some END_MARKER := by
    rw [← hsplit] at hg
    rwa [List.get?_append hidl] at hg
  refine ⟨i, ?_, ?_⟩
  · have := consumeChunk_length buf chunk hne
    omega
  · unfold consumeChunk
    rw [List.get?_append (by omega)]
    exact hdget

theorem scheduleT_false (ts : List Task) (t : Task) :
    scheduleT false ts t = ts ++ [t] := by
  simp [scheduleT]

theorem scheduleT_true (ts : List Task) (t : Task) :
    scheduleT true ts t = ts := by
  simp [scheduleT]

theorem filter_req (l₁ l₂ : List Task) (id : Nat) :
    (l₁ ++ Task.request id :: l₂).filter Task.isFin
      = l₁.filter Task.isFin ++ l₂.filter Task.isFin := by
  simp [List.filter_append, List.filter_cons, Task.isFin]

theorem filter_fin (l₁ l₂ : List Task) (id hwm : Nat) :
    (l₁ ++ Task.finalize id hwm :: l₂).filter Task.isFin
      = l₁.filter Task.isFin ++ Task.finalize id hwm :: l₂.filter Task.isFin := by
  simp [List.filter_append, List.filter_cons, Task.isFin]

theorem filter_snoc_req (l : List Task) (id : Nat) :
    (l ++ [Task.request id]).filter Task.isFin = l.filter Task.isFin := by
  simp [List.filter_append, List.filter_cons, Task.isFin]

theorem filter_snoc_fin (l : List Task) (id hwm : Nat) :
    (l ++ [Task.finalize id hwm]).filter Task.isFin
      = l.filter Task.isFin ++ [Task.finalize id hwm] := by
  simp [List.filter_append, List.filter_cons, Task.isFin]

theorem inv_step {s s' : SessState} (hi : Inv s) (h : Step false s s') :
    Inv s' := by
  obtain ⟨hcl, hfree, hbusy, hmark, hresp⟩ := hi
  cases h with
  | reqBusy lc s id l₁ l₂ ht hb =>
    obtain ⟨id₀, hwm₀, hfil, hw⟩ := hbusy hb
    rw [ht, filter_req] at hfil
    refine ⟨hcl, ?_, ?_, hmark, hresp⟩
    · intro hb'; rw [hb] at hb'; exact Bool.noConfusion hb'
    · intro _
      refine ⟨id₀, hwm₀, ?_, hw⟩
      show (scheduleT s.closing (l₁ ++ l₂) (Task.request id)).filter Task.isFin
        = [Task.finalize id₀ hwm₀]
      rw [hcl, scheduleT_false, filter_snoc_req, List.filter_append]
      exact hfil
  | reqFree lc s id l₁ l₂ ht hb =>
    obtain ⟨hfil, hw⟩ := hfree hb
    rw [ht, filter_req] at hfil
    obtain ⟨hfil₁, hfil₂⟩ := List.append_eq_nil.mp hfil
    refine ⟨hcl, ?_, ?_, hmark, ?_⟩
    · intro hb'; exact Bool.noConfusion hb'
    · intro _
      refine ⟨id, s.buf.length, ?_, by rw [hw]⟩
      show (scheduleT s.closing (l₁ ++ l₂)
          (Task.finalize id s.buf.length)).filter Task.isFin
        = [Task.finalize id s.buf.length]
      rw [hcl, scheduleT_false, filter_snoc_fin, List.filter_append, hfil₁,
        hfil₂]
      rfl
    · intro j hj
      simp only [List.mem_append, List.mem_singleton] at hj ⊢
      cases hj with
      | inl hl => exact Or.inl (hresp j hl)
      | inr hr => exact Or.inr hr
  | finPoll lc s id hwm l₁ l₂ ht hp =>
    have hb : s.busy = true := by
      cases hbv : s.busy with
      | false =>
        obtain ⟨hfil, _⟩ := hfree hbv
        rw [ht, filter_fin] at hfil
        exact absurd hfil (by simp)
      | true => rfl
    obtain ⟨id₀, hwm₀, hfil, hw⟩ := hbusy hb
    rw [ht, filter_fin] at hfil
    obtain ⟨hfil₁, heq, hfil₂⟩ := append_cons_eq_singleton hfil
    refine ⟨hcl, ?_, ?_, hmark, hresp⟩
    · intro hb'; rw [hb] at hb'; exact Bool.noConfusion hb'
    · intro _
      refine ⟨id₀, hwm₀, ?_, hw⟩
      show (scheduleT s.closing (l₁ ++ l₂)
          (Task.finalize id hwm)).filter Task.isFin
        = [Task.finalize id₀ hwm₀]
      rw [hcl, scheduleT_false, filter_snoc_fin, List.filter_append, hfil₁,
        hfil₂, heq]
      rfl
  | finDone lc s id hwm l₁ l₂ ht hp =>
    have hb : s.busy = true := by
      cases hbv : s.busy with
      | false =>
        obtain ⟨hfil, _⟩ := hfree hbv
        rw [ht, filter_fin] at hfil
        exact absurd hfil (by simp)
      | true => rfl
    obtain ⟨id₀, hwm₀, hfil, hw⟩ := hbusy hb
    rw [ht, filter_fin] at hfil
    obtain ⟨hfil₁, heq, hfil₂⟩ := append_cons_eq_singleton hfil
    have hid : id₀ = id := by
      injection heq with h1 h2
      exact h1.symm
    refine ⟨hcl, ?_, ?_, ?_, hresp⟩
    · intro _
      constructor
      · rw [List.filter_append, hfil₁, hfil₂]
        rfl
      · rw [hw, hid]
    · intro hb'; exact Bool.noConfusion hb'
    · intro _
      exact markerAt_of_promptReached hp
  | data lc s chunk =>
    refine ⟨hcl, hfree, hbusy, ?_, hresp⟩
    intro hc
    exact markerAt_consumeChunk (hmark hc)

theorem inv_reach {s₀ s : SessState} (h0 : Inv s₀) (h : ReachLive s₀ s) :
    Inv s := by
  induction h with
  | refl => exact h0
  | tail _ hstep ih => exact inv_step ih hstep

theorem inv_initTwo (b₀ : List (List Char)) : Inv (initTwo b₀) := by
  refine ⟨rfl, ?_, ?_, ?_, ?_⟩
  · intro _
    constructor
    · simp [initTwo, List.filter_cons, Task.isFin]
    · rfl
  · intro hb; exact Bool.noConfusion hb
  · intro hc; exact absurd rfl hc
  · intro j hj; simp [initTwo] at hj

/- ### Characterisation of the completion detector -/

theorem isPrefixOf_append_self (l t : List Char) :
    l.isPrefixOf (l ++ t) = true := by
  simp

theorem promptReached_iff (buf : List (List Char)) (hwm : Nat) :
    promptReached buf hwm = true ↔
      (hwm < buf.length ∧ 2 ≤ buf.length ∧
        buf.get? (buf.length - 2) = some END_MARKER) := by
  unfold promptReached jsGet
  rw [Bool.and_eq_true, decide_eq_true_iff, decide_eq_true_iff]
  constructor
  · rintro ⟨h1, h2⟩
    by_cases hneg : ((buf.length : Int) - 2) < 0
    · rw [if_pos hneg] at h2
      exact absurd h2 (by simp)
    · rw [if_neg hneg] at h2
      have htn : ((buf.length : Int) - 2).toNat = buf.length - 2 := by omega
      rw [htn] at h2
      exact ⟨h1, by omega, h2⟩
  · rintro ⟨h1, h2, h3⟩
    refine ⟨h1, ?_⟩
    have hneg : ¬((buf.length : Int) - 2 < 0) := by omega
    rw [if_neg hneg]
    have htn : ((buf.length : Int) - 2).toNat = buf.length - 2 := by omega
    rw [htn]
    exact h3

/-- Claim C1 (amended): the detector judges a command complete exactly when
the buffer has grown past the high-water mark and the second-to-last line of
the whole buffer equals the sentinel; consequently, when one sentinel line
and then one prompt line are appended after the high-water mark *and the
last line buffered at submission is not itself the sentinel*, the detector
fires after the second append and not before. -/
theorem completion_detection_amended :
    (∀ (buf : List (List Char)) (hwm : Nat),
        promptReached buf hwm = true ↔
          (hwm < buf.length ∧ 2 ≤ buf.length ∧
            buf.get? (buf.length - 2) = some END_MARKER)) ∧
    (∀ (b : List (List Char)) (p : List Char),
        b.getLast? ≠ some END_MARKER →
        promptReached b b.length = false ∧
        promptReached (b ++ [END_MARKER]) b.length = false ∧
        promptReached ((b ++ [END_MARKER]) ++ [p]) b.length = true) := by
  refine ⟨promptReached_iff, ?_⟩
  intro b p hlast
  refine ⟨?_, ?_, ?_⟩
  · rw [Bool.eq_false_iff]
    intro hc
    rw [promptReached_iff] at hc
    omega
  · rw [Bool.eq_false_iff]
    intro hc
    rw [promptReached_iff] at hc
    obtain ⟨h1, h2, h3⟩ := hc
    rw [List.length_append, List.length_singleton] at h2 h3
    have hbne : b ≠ [] := by
      intro hb
      rw [hb] at h2
      simp at h2
    have hidx : b.length + 1 - 2 = b.length - 1 := by omega
    rw [hidx, List.get?_append (by omega)] at h3
    rw [List.getLast?_eq_get?] at hlast
    exact hlast h3
  · rw [promptReached_iff]
    refine ⟨?_, ?_, ?_⟩
    · simp
    · simp
    · have hlen : ((b ++ [END_MARKER]) ++ [p]).length = b.length + 2 := by
        simp
      rw [hlen]
      have hidx : b.length + 2 - 2 = b.length := by omega
      rw [hidx,
        List.get?_append (by simp),
        List.get?_append_right (by omega)]
      simp

/-- Claim C1, as stated, is falsified when the last line buffered at
submission already equals the sentinel: with the buffer `[END_MARKER]` and
high-water mark `1`, appending only the sentinel line (the first of the two
appends) already makes the detector fire, i.e. it fires *before* the
second append. -/
theorem completion_detection_counterexample :
    promptReached [END_MARKER] 1 = false ∧
    promptReached [END_MARKER, END_MARKER] 1 = true := by
  decide

theorem completion_detection_witness :
    promptReached [[]] 1 = false ∧
    promptReached ([[]] ++ [END_MARKER]) 1 = false ∧
    promptReached (([[]] ++ [END_MARKER]) ++ [[]]) 1 = true :=
  completion_detection_amended.2 [[]] [] (by decide)

/-- Claim C3: for any sequence of stream chunks, the number of buffered
lines after full consumption equals the number of lines of the chunks'
concatenation (split on newline), regardless of where chunk boundaries
fall.  The buffer starts as `[""]`, exactly as `_fullDebugOutput` does. -/
theorem line_reassembly (chunks : List (List Char)) :
    (consumeChunks [[]] chunks).length
      = (splitOn '\n' chunks.flatten).length := by
  rw [consumeChunks_length chunks [[]] (by simp), splitOn_length,
    count_flatten]
  simp only [List.length_cons, List.length_nil]
  omega

/-- Claim C7: a line beginning with `"bashdb<"` that contains `"> "` is
stored with everything up to and including the first `"> "` removed; a line
not beginning with `"bashdb<"` is stored unchanged. -/
theorem prompt_stripping :
    (∀ pre suf : List Char,
        promptHead.isPrefixOf (pre ++ gtSpace ++ suf) = true →
        (∀ j, j < pre.length →
          gtSpace.isPrefixOf ((pre ++ gtSpace ++ suf).drop j) = false) →
        removePrompt (pre ++ gtSpace ++ suf) = suf) ∧
    (∀ line : List Char, promptHead.isPrefixOf line = false →
        removePrompt line = line) := by
  constructor
  · intro pre suf hpre hmin
    have hfind : findSub gtSpace (pre ++ gtSpace ++ suf) = some pre.length := by
      apply findSub_eq_some_of
      · rw [List.append_assoc, List.drop_left]
        exact isPrefixOf_append_self gtSpace suf
      · exact hmin
    have hidx0 : idxOf promptHead (pre ++ gtSpace ++ suf) = 0 :=
      (idxOf_zero_iff _ _).mpr hpre
    unfold removePrompt
    rw [if_pos hidx0]
    have hidx : idxOf gtSpace (pre ++ gtSpace ++ suf) = (pre.length : Int) := by
      unfold idxOf
      rw [hfind]
    rw [hidx]
    have htn : ((pre.length : Int) + 2).toNat = pre.length + 2 := by omega
    rw [htn]
    have hlg : pre.length + 2 = (pre ++ gtSpace).length := by
      have : gtSpace.length = 2 := by decide
      simp [this]
    rw [hlg, List.drop_left]
  · intro line h
    have hne : ¬(idxOf promptHead line = 0) := by
      intro hc
      rw [idxOf_zero_iff] at hc
      rw [h] at hc
      exact Bool.noConfusion hc
    unfold removePrompt
    rw [if_neg hne]

theorem prompt_stripping_witness :
    removePrompt ("bashdb<1".toList ++ gtSpace ++ "x".toList) = "x".toList ∧
    removePrompt ("hello".toList) = "hello".toList :=
  ⟨prompt_stripping.1 ("bashdb<1".toList) ("x".toList) (by decide) (by decide),
    prompt_stripping.2 ("hello".toList) (by decide)⟩

/-- Claim C9: a line beginning with `"bashdb<"` but containing no `"> "`
is stored with exactly its first character removed — `indexOf("> ")` is
`-1`, so `substr(-1 + 2) = substr(1)` — hence neither unchanged nor with
the whole `"bashdb<"` prefix removed. -/
theorem prompt_stripping_no_close (line : List Char)
    (hpre : promptHead.isPrefixOf line = true)
    (hno : ∀ j, j < line.length →
      gtSpace.isPrefixOf (line.drop j) = false) :
    removePrompt line = line.drop 1 ∧
    removePrompt line ≠ line ∧
    removePrompt line ≠ line.drop promptHead.length := by
  have hfind : findSub gtSpace line = none := by
    apply findSub_eq_none_of gtSpace (by decide)
    intro j
    by_cases hj : j < line.length
    · exact hno j hj
    · rw [List.drop_eq_nil_of_le (by omega)]
      decide
  have hidx0 : idxOf promptHead line = 0 := (idxOf_zero_iff _ _).mpr hpre
  have hrp : removePrompt line = line.drop 1 := by
    unfold removePrompt
    rw [if_pos hidx0]
    have hidx : idxOf gtSpace line = -1 := by
      unfold idxOf
      rw [hfind]
    rw [hidx]
    norm_num
  have hp' : List.IsPrefix promptHead line := by simpa using hpre
  have hlen7 : 7 ≤ line.length := by
    have := hp'.length_le
    have h7 : promptHead.length = 7 := by decide
    omega
  refine ⟨hrp, ?_, ?_⟩
  · rw [hrp]
    intro hc
    have := congrArg List.length hc
    rw [List.length_drop] at this
    omega
  · rw [hrp]
    intro hc
    have := congrArg List.length hc
    rw [List.length_drop, List.length_drop] at this
    have h7 : promptHead.length = 7 := by decide
    omega

theorem prompt_stripping_no_close_witness :
    removePrompt ("bashdb<x".toList) = ("bashdb<x".toList).drop 1 ∧
    removePrompt ("bashdb<x".toList) ≠ "bashdb<x".toList ∧
    removePrompt ("bashdb<x".toList) ≠ ("bashdb<x".toList).drop promptHead.length :=
  prompt_stripping_no_close ("bashdb<x".toList) (by decide) (by decide)

/- ### Claims about the breakpoint ledger, variables request, and the
set-breakpoints poller's responses -/

/-- Claim C4: once a set-breakpoints request completes, the ledger entry for
the file consists exactly of the ids parsed from that request's
confirmation lines, independently of whatever the ledger held before —
no id from an earlier call persists. -/
theorem breakpoint_ledger_replacement (led : Ledger) (path : List Char)
    (buf : List (List Char)) (hwm : Nat)
    (hp : promptReached buf hwm = true) :
    (sbpFinalizeLedger led path buf hwm) path = confirmedIds buf hwm ∧
    (∀ led' : Ledger,
      (sbpFinalizeLedger led path buf hwm) path
        = (sbpFinalizeLedger led' path buf hwm) path) := by
  have key : ∀ l : Ledger,
      (sbpFinalizeLedger l path buf hwm) path = confirmedIds buf hwm := by
    intro l
    unfold sbpFinalizeLedger
    rw [if_pos hp,
      sbp_foldl_ledger buf path (pollIndices hwm (buf.length - 2)) l []]
    simp [confirmedIds]
  exact ⟨key led, fun led' => (key led).trans (key led').symm⟩

/-- A stale ledger: every file maps to the id 99. -/
def bpStaleLedger : Ledger := fun _ => [some 99]

/-- The witness source path. -/
def bpPath : List Char := "/s.sh".toList

/-- A buffer holding one marker line, one confirmation line assigning id 1,
the sentinel, and the trailing prompt line. -/
def bpBuf : List (List Char) :=
  [[], " </s.sh:5> ".toList,
    "Breakpoint 1 set in file /s.sh, line 5.".toList, END_MARKER, []]

theorem breakpoint_ledger_replacement_witness :
    promptReached bpBuf 1 = true ∧
    confirmedIds bpBuf 1 = [some 1] ∧
    (sbpFinalizeLedger bpStaleLedger bpPath bpBuf 1) bpPath
      = confirmedIds bpBuf 1 :=
  ⟨by decide, by decide,
    (breakpoint_ledger_replacement bpStaleLedger bpPath bpBuf 1 (by decide)).1⟩

/-- Claim C8 as stated is false at the concrete command text: the variables
request never queries the shell's process id — neither the marker pair
`" <$$> "` nor even the token `"$$"` occurs anywhere in the text written
to the debugger's stdin. -/
theorem variables_request_counterexample :
    containsSub (" <$$> ".toList) (variablesWrittenText 0) = false ∧
    containsSub ("$$".toList) (variablesWrittenText 0) = false := by
  decide

/-- Claim C8 (amended): every variables request writes the same fixed
command text regardless of its arguments, and that text queries exactly the
fixed list `$PWD`, `$?`, `$0` … `$9` (working directory, exit status, and
positional-parameter slots — not the PID), each via a marker/value command
pair. -/
theorem variables_request_fixed_list (a b : Nat) :
    variablesWrittenText a = variablesWrittenText b ∧
    (∀ v, v ∈ variableSeedNames →
      containsSub (variableQueryBlock v) (variablesWrittenText a) = true) := by
  refine ⟨rfl, ?_⟩
  have h0 : variablesWrittenText a = variablesWrittenText 0 := rfl
  rw [h0]
  decide

theorem variables_request_fixed_list_witness :
    variablesWrittenText 0 = variablesWrittenText 1 ∧
    containsSub (variableQueryBlock ("PWD".toList)) (variablesWrittenText 0)
      = true :=
  ⟨(variables_request_fixed_list 0 1).1,
    (variables_request_fixed_list 0 1).2 ("PWD".toList) (by decide)⟩

theorem sbpPollRun_length (hwm : Nat) (b : List (List Char))
    (rest : List (List (List Char))) (hb : promptReached b hwm = true) :
    ∀ pre : List (List (List Char)),
      (∀ x, x ∈ pre → promptReached x hwm = false) →
      (sbpPollRun hwm (pre ++ b :: rest)).length = pre.length + 2 := by
  intro pre
  induction pre with
  | nil =>
    intro _
    simp [sbpPollRun, sbpFinalizeResponses, hb]
  | cons x pre' ih =>
    intro hpre
    have hx : promptReached x hwm = false := hpre x (by simp)
    have ih' := ih (fun y hy => hpre y (by simp [hy]))
    simp only [List.cons_append, sbpPollRun, sbpFinalizeResponses, hx,
      Bool.false_eq_true, if_false, List.length_append, List.append_eq,
      List.length_cons, List.length_nil] at ih' ⊢
    omega

/-- Claim C10: the set-breakpoints completion poller sends a response
unconditionally on entry, before checking for completion, so a request
whose sentinel appears only after `n ≥ 1` polling ticks sends `n + 2`
responses in total — more than once. -/
theorem sbp_duplicate_responses (hwm : Nat) (pre : List (List (List Char)))
    (b : List (List Char)) (rest : List (List (List Char)))
    (hpre : ∀ x, x ∈ pre → promptReached x hwm = false)
    (hb : promptReached b hwm = true) :
    (sbpPollRun hwm (pre ++ b :: rest)).length = pre.length + 2 ∧
    1 < (sbpPollRun hwm (pre ++ b :: rest)).length := by
  have key := sbpPollRun_length hwm b rest hb pre hpre
  exact ⟨key, by omega⟩

theorem sbp_duplicate_responses_witness :
    (sbpPollRun 1 ([[[]]] ++ [[], END_MARKER, []] :: [])).length = 3 ∧
    1 < (sbpPollRun 1 ([[[]]] ++ [[], END_MARKER, []] :: [])).length :=
  sbp_duplicate_responses 1 [[[]]] [[], END_MARKER, []] [] (by decide)
    (by decide)

/- ### Claims about the command gate, step acknowledgment, and shutdown -/

/-- Claim C2: along any live execution after two back-to-back requests, the
completed commands always form a prefix of the written commands and at most
one written command is uncompleted (at most one in flight); as soon as a
second command has been written, the first has completed — and a completion
requires the sentinel to sit in the buffer. -/
theorem gate_serializes_commands (b₀ : List (List Char)) (s : SessState)
    (h : ReachLive (initTwo b₀) s) :
    List.IsPrefix s.completed s.writes ∧
    s.writes.length ≤ s.completed.length + 1 ∧
    (2 ≤ s.writes.length → s.completed ≠ [] ∧ markerAt s.buf) := by
  have hi := inv_reach (inv_initTwo b₀) h
  obtain ⟨-, hfree, hbusy, hmark, -⟩ := hi
  cases hb : s.busy with
  | false =>
    obtain ⟨-, hw⟩ := hfree hb
    refine ⟨⟨[], by rw [List.append_nil, hw]⟩, by rw [hw]; omega, ?_⟩
    intro h2
    have hne : s.completed ≠ [] := by
      intro hc
      rw [hw, hc] at h2
      simp at h2
    exact ⟨hne, hmark hne⟩
  | true =>
    obtain ⟨id, hwm, -, hw⟩ := hbusy hb
    refine ⟨⟨[id], hw.symm⟩, ?_, ?_⟩
    · rw [hw, List.length_append, List.length_singleton]
    · intro h2
      have hne : s.completed ≠ [] := by
        intro hcemp
        rw [hw, hcemp] at h2
        simp at h2
      exact ⟨hne, hmark hne⟩

theorem gate_serializes_commands_witness :
    List.IsPrefix (initTwo [[]]).completed (initTwo [[]]).writes ∧
    (initTwo [[]]).writes.length ≤ (initTwo [[]]).completed.length + 1 ∧
    (2 ≤ (initTwo [[]]).writes.length →
      (initTwo [[]]).completed ≠ [] ∧ markerAt (initTwo [[]]).buf) :=
  gate_serializes_commands [[]] (initTwo [[]]) Relation.ReflTransGen.refl

/-- Claim C6: a step-like request's acknowledgment is sent in the very step
that writes its command (so before any polling tick can detect completion),
and along any live execution every completed command was already
acknowledged. -/
theorem step_ack_before_completion :
    (∀ (s s' : SessState) (id : Nat), Step false s s' →
        id ∈ s'.writes → id ∉ s.writes →
        id ∈ s'.responses ∧ s'.completed = s.completed) ∧
    (∀ (b₀ : List (List Char)) (s : SessState), ReachLive (initTwo b₀) s →
        ∀ id, id ∈ s.completed → id ∈ s.responses) := by
  constructor
  · intro s s' id hstep hmem hnmem
    cases hstep with
    | reqBusy lc u id₀ l₁ l₂ ht hb => exact absurd hmem hnmem
    | reqFree lc u id₀ l₁ l₂ ht hb =>
      have hmem' : id ∈ s.writes ++ [id₀] := hmem
      simp only [List.mem_append, List.mem_singleton] at hmem'
      rcases hmem' with hmm | hmm
      · exact absurd hmm hnmem
      · subst hmm
        refine ⟨?_, rfl⟩
        show id ∈ s.responses ++ [id]
        simp
    | finPoll lc u id₀ hwm l₁ l₂ ht hp => exact absurd hmem hnmem
    | finDone lc u id₀ hwm l₁ l₂ ht hp => exact absurd hmem hnmem
    | data lc u chunk => exact absurd hmem hnmem
  · intro b₀ s hreach id hmem
    have hi := inv_reach (inv_initTwo b₀) hreach
    obtain ⟨-, hfree, hbusy, -, hresp⟩ := hi
    have hw : id ∈ s.writes := by
      cases hb : s.busy with
      | false =>
        obtain ⟨-, hweq⟩ := hfree hb
        rw [hweq]
        exact hmem
      | true =>
        obtain ⟨id₀, hwm, -, hweq⟩ := hbusy hb
        rw [hweq]
        exact List.mem_append.mpr (Or.inl hmem)
    exact hresp id hw

/-- The state right after the first request of `initTwo [[]]` is admitted:
its command is written, its response is sent, its poller is scheduled. -/
def ackState : SessState :=
  ⟨true, false, [[]], [Task.request 2, Task.finalize 1 1], [1], [], [1]⟩

theorem step_ack_before_completion_witness :
    1 ∈ ackState.responses ∧ ackState.completed = (initTwo [[]]).completed :=
  step_ack_before_completion.1 (initTwo [[]]) ackState 1
    (Step.reqFree false (initTwo [[]]) 1 [] [Task.request 2] rfl rfl)
    (by decide) (by decide)

/-- Claim C5 (amended): once the child-process exit event has set the
closing flag, every self-reschedule is a no-op — any step removes at least
as many callbacks as it adds, so the timer queue only shrinks, and the
closing flag stays set.  (The claim's further assertion that no scheduled
callback writes to the child's input does not hold; see the
counterexample.) -/
theorem post_exit_no_reschedule (s s' : SessState)
    (hc : s.closing = true) (h : Step true s s') :
    List.Sublist s'.tasks s.tasks ∧ s'.closing = true := by
  cases h with
  | reqBusy lc u id l₁ l₂ ht hb =>
    refine ⟨?_, hc⟩
    show List.Sublist (scheduleT s.closing (l₁ ++ l₂) (Task.request id))
      s.tasks
    rw [hc, scheduleT_true, ht]
    exact List.Sublist.append_left (List.sublist_cons_self _ _) l₁
  | reqFree lc u id l₁ l₂ ht hb =>
    refine ⟨?_, hc⟩
    show List.Sublist
      (scheduleT s.closing (l₁ ++ l₂) (Task.finalize id s.buf.length)) s.tasks
    rw [hc, scheduleT_true, ht]
    exact List.Sublist.append_left (List.sublist_cons_self _ _) l₁
  | finPoll lc u id hwm l₁ l₂ ht hp =>
    refine ⟨?_, hc⟩
    show List.Sublist (scheduleT s.closing (l₁ ++ l₂) (Task.finalize id hwm))
      s.tasks
    rw [hc, scheduleT_true, ht]
    exact List.Sublist.append_left (List.sublist_cons_self _ _) l₁
  | finDone lc u id hwm l₁ l₂ ht hp =>
    refine ⟨?_, hc⟩
    rw [ht]
    exact List.Sublist.append_left (List.sublist_cons_self _ _) l₁
  | data lc u chunk => exact ⟨List.Sublist.refl _, hc⟩
  | disconnect u => exact ⟨List.Sublist.refl _, hc⟩
  | exitEvent u => exact ⟨List.Sublist.refl _, rfl⟩

/-- A closed session with one request retry still queued. -/
def quiescedState : SessState :=
  ⟨true, true, [[]], [Task.request 5], [], [], []⟩

/-- `quiescedState` after its queued retry runs: the retry is consumed and
its self-reschedule is a no-op. -/
def quiescedAfter : SessState :=
  ⟨true, true, [[]], [], [], [], []⟩

theorem post_exit_no_reschedule_witness :
    List.Sublist quiescedAfter.tasks quiescedState.tasks ∧
    quiescedAfter.closing = true :=
  post_exit_no_reschedule quiescedState quiescedAfter rfl
    (Step.reqBusy true quiescedState 5 [] [] rfl rfl)

/-- Intermediate states of the counterexample trace for claim C5. -/
def cx1 : SessState :=
  ⟨true, false, [[]], [Task.request 2, Task.finalize 1 1], [1], [], [1]⟩

/-- After the second request's retry is queued behind the poller. -/
def cx2 : SessState :=
  ⟨true, false, [[]], [Task.finalize 1 1, Task.request 2], [1], [], [1]⟩

/-- After `disconnectRequest` clears the busy flag. -/
def cx3 : SessState :=
  ⟨false, false, [[]], [Task.finalize 1 1, Task.request 2], [1], [], [1]⟩

/-- After the exit event sets the closing flag. -/
def cxClosed : SessState :=
  ⟨false, true, [[]], [Task.finalize 1 1, Task.request 2], [1], [], [1]⟩

/-- The retry admitted post-exit: it writes command 2 to the dead child. -/
def cxAfter : SessState :=
  ⟨true, true, [[]], [Task.finalize 1 1], [1, 2], [], [1, 2]⟩

/-- Claim C5, as stated, is false: in a reachable post-exit state a request
callback scheduled before the exit event still runs, finds the busy flag
cleared by `disconnectRequest`, and writes its command to the child's
input while `closing = true`. -/
theorem post_exit_write_counterexample :
    ReachFull (initTwo [[]]) cxClosed ∧
    cxClosed.closing = true ∧
    Step true cxClosed cxAfter ∧
    cxAfter.writes = cxClosed.writes ++ [2] := by
  refine ⟨?_, rfl, ?_, rfl⟩
  · exact Relation.ReflTransGen.tail
      (Relation.ReflTransGen.tail
        (Relation.ReflTransGen.tail
          (Relation.ReflTransGen.tail Relation.ReflTransGen.refl
            (show Step true (initTwo [[]]) cx1 from
              Step.reqFree true (initTwo [[]]) 1 [] [Task.request 2] rfl rfl))
          (show Step true cx1 cx2 from
            Step.reqBusy true cx1 2 [] [Task.finalize 1 1] rfl rfl))
        (show Step true cx2 cx3 from Step.disconnect cx2))
      (show Step true cx3 cxClosed from Step.exitEvent cx3)
  · exact show Step true cxClosed cxAfter from
      Step.reqFree true cxClosed 2 [Task.finalize 1 1] [] rfl rfl

end BashDebug
